import Mathlib

/-!
Shallow embedding of the agent-collaboration-patterns library
(src/patterns/consensus_pattern.py, supervisor_pattern.py,
debate_pattern.py, pipeline_pattern.py, swarm_pattern.py).

Python floats are modelled as rationals, Python dicts as association
lists preserving insertion order (as CPython dicts do), and mutation as
explicit state passing.
-/

namespace Patterns

/-! ## Consensus engine (consensus_pattern.py) -/

inductive VotingStrategy
  | simple_majority
  | weighted_confidence
  | unanimous
  deriving DecidableEq, Repr

structure Vote where
  agent_name : String
  option : String
  confidence : ℚ
  reasoning : String := ""
  deriving DecidableEq, Repr

structure ConsensusEngine where
  strategy : VotingStrategy
  votes : List Vote
  deriving DecidableEq, Repr

/-- `ConsensusEngine.add_vote`: the confidence is clamped into [0,1]
(`max(0.0, min(1.0, confidence))`) and the vote appended. -/
def add_vote (e : ConsensusEngine) (agent_name option : String)
    (confidence : ℚ) (reasoning : String := "") : ConsensusEngine :=
  { e with votes := e.votes ++
      [{ agent_name := agent_name, option := option,
         confidence := max 0 (min 1 confidence), reasoning := reasoning }] }

/-- Association-list update mirroring a Python dict write
`d[k] = f(d.get(k, init))`: the first entry with key `k` is updated in
place; if no entry has key `k` one is appended (insertion order kept). -/
def assocUpd {β : Type} (l : List (String × β)) (k : String)
    (init : β) (f : β → β) : List (String × β) :=
  match l with
  | [] => [(k, f init)]
  | (k₀, v₀) :: rest =>
      if k₀ = k then (k₀, f v₀) :: rest
      else (k₀, v₀) :: assocUpd rest k init f

/-- Association-list lookup mirroring a Python dict read. -/
def assocGet {β : Type} (l : List (String × β)) (k : String) : Option β :=
  match l with
  | [] => none
  | (k₀, v₀) :: rest => if k₀ = k then some v₀ else assocGet rest k

/-- The `option_scores` dict built by `_weighted_consensus`:
per-option sum of confidences, keys in first-occurrence order. -/
def option_scores (votes : List Vote) : List (String × ℚ) :=
  votes.foldl (fun acc v => assocUpd acc v.option 0 (· + v.confidence)) []

/-- The `option_counts` dict built by `_weighted_consensus`:
per-option vote count, keys in first-occurrence order. -/
def option_counts (votes : List Vote) : List (String × Nat) :=
  votes.foldl (fun acc v => assocUpd acc v.option 0 (· + 1)) []

/-- Python `max(keys, key=score)` over a dict in iteration order:
returns the first key attaining the maximal score (a later key replaces
the current best only when strictly greater). -/
def firstMaxKey {β : Type} [LinearOrder β] :
    List (String × β) → Option String
  | [] => none
  | p :: rest => some ((rest.foldl
      (fun best q => if q.2 > best.2 then q else best) p).1)

/-- Result dictionaries returned by `calculate_consensus`: one
constructor per shape of dict the Python code can return, plus
`zeroDivisionError` for the `ZeroDivisionError` that
`_weighted_consensus` raises when it divides by a total summed
confidence of 0.0. -/
inductive ConsensusResult
  | noVotes (consensus : Option String) (confidence : ℚ)
  | weighted (consensus : String) (confidence : ℚ)
      (vote_breakdown : List (String × ℚ))
  | majority (consensus : String) (votes_for : Nat) (total_votes : Nat)
  | unanimousRes (consensus : Option String) (unanimous : Bool)
  | bare (consensus : Option String)
  | zeroDivisionError
  deriving DecidableEq, Repr

/-- `ConsensusEngine._weighted_consensus`.  Python float division by
zero raises, so when the total summed confidence is 0 (for example
when every recorded confidence is 0.0) the division
`option_scores[best_option] / total_confidence` raises
`ZeroDivisionError`; that reachable raise is modelled by the
`zeroDivisionError` result. -/
def weighted_consensus (votes : List Vote) : ConsensusResult :=
  let scores := option_scores votes
  let counts := option_counts votes
  match firstMaxKey scores with
  | none => ConsensusResult.bare none
  | some best =>
      let total := (scores.map Prod.snd).sum
      if total = 0 then ConsensusResult.zeroDivisionError
      else
        ConsensusResult.weighted best
          ((assocGet scores best).getD 0 / total)
          (scores.map (fun p =>
            (p.1, p.2 / ((assocGet counts p.1).getD 0 : ℚ))))

/-- `ConsensusEngine._majority_consensus`. -/
def majority_consensus (votes : List Vote) : ConsensusResult :=
  let counts := option_counts votes
  match firstMaxKey counts with
  | none => ConsensusResult.bare none
  | some best =>
      ConsensusResult.majority best ((assocGet counts best).getD 0)
        votes.length

/-- `ConsensusEngine._unanimous_consensus`. -/
def unanimous_consensus (votes : List Vote) : ConsensusResult :=
  match votes with
  | [] => ConsensusResult.unanimousRes none false
  | v₀ :: _ =>
      let first_option := v₀.option
      let unanimous := votes.all (fun v => v.option = first_option)
      ConsensusResult.unanimousRes
        (if unanimous then some first_option else none) unanimous

/-- `ConsensusEngine.calculate_consensus`: dispatch on strategy; an
empty vote log short-circuits to "no consensus, confidence 0". -/
def calculate_consensus (e : ConsensusEngine) : ConsensusResult :=
  if e.votes = [] then ConsensusResult.noVotes none 0
  else
    match e.strategy with
    | VotingStrategy.weighted_confidence => weighted_consensus e.votes
    | VotingStrategy.simple_majority => majority_consensus e.votes
    | VotingStrategy.unanimous => unanimous_consensus e.votes

/-- `calculate_consensus` as a state transformer: the Python method
only reads `self.votes` and `self.strategy`, so the engine state it
leaves behind is the one it was called on. -/
def calculate_consensusM (e : ConsensusEngine) :
    ConsensusResult × ConsensusEngine :=
  (calculate_consensus e, e)

/-! ## Supervisor/Worker (supervisor_pattern.py)

Timestamps (`created_at`, `completed_at`) carry no algorithmic content
and are omitted; the `asyncio.sleep` backoff has no observable effect on
engine state and is likewise omitted.  Whether an execution attempt
times out is modelled by an oracle `outcomes : Nat → Option String`
(`none` = `asyncio.TimeoutError` on that attempt, `some r` = result
`r`); non-timeout exceptions propagate in Python and are outside the
model. -/

structure Task where
  task_id : String
  description : String
  assigned_to : Option String := none
  status : String := "pending"
  result : Option String := none
  deriving DecidableEq

structure WorkerAgent where
  name : String
  expertise : Option String := none
  completed_tasks : Nat := 0
  failed_tasks : Nat := 0
  deriving DecidableEq

/-- `WorkerAgent.get_load`:
`failed_tasks / max(1, completed_tasks + failed_tasks)`. -/
def get_load (w : WorkerAgent) : ℚ :=
  (w.failed_tasks : ℚ) /
    ((max 1 (w.completed_tasks + w.failed_tasks) : Nat) : ℚ)

/-- The supervisor's `workers` and `tasks` dicts, as insertion-ordered
lists keyed by worker name / task id. -/
structure SupervisorAgent where
  name : String
  workers : List WorkerAgent := []
  tasks : List Task := []
  max_retries : Nat := 3
  deriving DecidableEq

/-- Python dict write `self.workers[worker.name] = worker`:
replace the entry with the same name in place, else append. -/
def dictInsertWorker (ws : List WorkerAgent) (w : WorkerAgent) :
    List WorkerAgent :=
  match ws with
  | [] => [w]
  | w₀ :: rest =>
      if w₀.name = w.name then w :: rest
      else w₀ :: dictInsertWorker rest w

/-- `SupervisorAgent.register_worker`. -/
def register_worker (s : SupervisorAgent) (w : WorkerAgent) :
    SupervisorAgent :=
  { s with workers := dictInsertWorker s.workers w }

/-- Python truthiness of the optional `expertise` argument:
`if expertise:` is taken for a present, non-empty string. -/
def truthy : Option String → Bool
  | none => false
  | some e => e ≠ ""

/-- Python `min(candidates, key=...)`: fold keeping the first element
attaining the minimum key (a later element replaces the current best
only when its key is strictly smaller). -/
def pickMinBy {α β : Type} [LinearOrder β] (key : α → β) (b : α) :
    List α → α
  | [] => b
  | q :: rest => pickMinBy key (if key q < key b then q else b) rest

/-- `SupervisorAgent.select_worker`. -/
def select_worker (s : SupervisorAgent) (expertise : Option String) :
    Option WorkerAgent :=
  let candidates :=
    if truthy expertise then
      s.workers.filter (fun w => w.expertise = expertise)
    else s.workers
  match candidates with
  | [] => none
  | c :: rest => some (pickMinBy get_load c rest)

/-- Python dict write `self.tasks[task.task_id] = task`. -/
def dictInsertTask (ts : List Task) (t : Task) : List Task :=
  match ts with
  | [] => [t]
  | t₀ :: rest =>
      if t₀.task_id = t.task_id then t :: rest
      else t₀ :: dictInsertTask rest t

/-- Store the (mutated) task object back into the registry; models the
aliasing between the local `task` variable and `self.tasks[task_id]`. -/
def setTask (s : SupervisorAgent) (t : Task) : SupervisorAgent :=
  { s with tasks := dictInsertTask s.tasks t }

/-- Update the registered worker with the given name (unique in a
Python dict) in place. -/
def updWorkerFirst (ws : List WorkerAgent) (name : String)
    (f : WorkerAgent → WorkerAgent) : List WorkerAgent :=
  match ws with
  | [] => []
  | w :: rest =>
      if w.name = name then f w :: rest
      else w :: updWorkerFirst rest name f

/-- `worker.failed_tasks += 1` on the registered worker object. -/
def incFailed (s : SupervisorAgent) (name : String) : SupervisorAgent :=
  { s with workers := (updWorkerFirst s.workers name
      (fun w => { w with failed_tasks := w.failed_tasks + 1 })) }

/-- `worker.completed_tasks += 1` on the registered worker object. -/
def incCompleted (s : SupervisorAgent) (name : String) :
    SupervisorAgent :=
  { s with workers := (updWorkerFirst s.workers name
      (fun w => { w with completed_tasks := w.completed_tasks + 1 })) }

/-- The retry loop `for attempt in range(self.max_retries)` of
`delegate_task`, over the list of remaining attempt indices. -/
def attemptLoop (outcomes : Nat → Option String) (wname : String) :
    List Nat → Task → SupervisorAgent → Option String × SupervisorAgent
  | [], _, s => (none, s)
  | a :: rest, t, s =>
      let t₁ := { t with status := "running" }
      let s₁ := setTask s t₁
      match outcomes a with
      | some r =>
          let t₂ := { t₁ with status := "completed", result := some r }
          (some r, incCompleted (setTask s₁ t₂) wname)
      | none =>
          let t₂ := { t₁ with status := "failed" }
          attemptLoop outcomes wname rest t₂ (incFailed (setTask s₁ t₂) wname)

/-- `SupervisorAgent.delegate_task`. -/
def delegate_task (s : SupervisorAgent) (task_description : String)
    (expertise : Option String) (outcomes : Nat → Option String) :
    Option String × SupervisorAgent :=
  match select_worker s expertise with
  | none => (none, s)
  | some worker =>
      let t : Task :=
        { task_id := "task_" ++ toString s.tasks.length,
          description := task_description,
          assigned_to := some worker.name }
      let s₁ := setTask s t
      attemptLoop outcomes worker.name (List.range s.max_retries) t s₁

structure SupervisorStatus where
  supervisor : String
  total_workers : Nat
  total_tasks : Nat
  completed_tasks : Nat
  failed_tasks : Nat
  success_rate : ℚ
  deriving DecidableEq

/-- `SupervisorAgent.get_status`. -/
def get_status (s : SupervisorAgent) : SupervisorStatus :=
  let completed := (s.tasks.filter (fun t => t.status = "completed")).length
  let failed := (s.tasks.filter (fun t => t.status = "failed")).length
  { supervisor := s.name,
    total_workers := s.workers.length,
    total_tasks := s.tasks.length,
    completed_tasks := completed,
    failed_tasks := failed,
    success_rate := (completed : ℚ) / ((max 1 s.tasks.length : Nat) : ℚ) }

/-- `get_status` as a state transformer: the method only reads state. -/
def get_statusM (s : SupervisorAgent) :
    SupervisorStatus × SupervisorAgent :=
  (get_status s, s)

/-- Dict read `self.tasks[tid]` (first entry with the given id). -/
def lookupTask (ts : List Task) (tid : String) : Option Task :=
  match ts with
  | [] => none
  | t :: rest => if t.task_id = tid then some t else lookupTask rest tid

/-- Dict read `self.workers[name]` (first entry with the given name). -/
def lookupWorker (ws : List WorkerAgent) (name : String) :
    Option WorkerAgent :=
  match ws with
  | [] => none
  | w :: rest => if w.name = name then some w else lookupWorker rest name

/-! ## Debate engine (debate_pattern.py)

Argument timestamps and `supporting_evidence` (always left empty by
`run_debate`) are omitted.  `run_debate` always populates both
arguments of a round before appending it, so they are modelled as
plain fields rather than optionals. -/

inductive DebatePosition
  | proposer
  | critic
  deriving DecidableEq

structure Argument where
  position : DebatePosition
  content : String
  confidence_score : ℚ
  deriving DecidableEq

structure DebateRound where
  round_number : Nat
  proposer_argument : Argument
  critic_argument : Argument
  consensus_score : ℚ
  deriving DecidableEq

/-- `DebateOrchestrator._calculate_consensus`: round score under the
configured scoring strategy; an unknown strategy yields 0.5. -/
def debate_round_consensus (scoring_strategy : String)
    (proposer_arg critic_arg : Argument) : ℚ :=
  if scoring_strategy = "entropy_reduction" then
    min proposer_arg.confidence_score critic_arg.confidence_score
  else if scoring_strategy = "agreement_measure" then
    (proposer_arg.confidence_score + critic_arg.confidence_score) / 2
  else 0.5

/-- The body of `run_debate`'s loop for one round number: synthetic
proposer confidence `0.8 + round*0.05`, critic `0.7 + round*0.04`. -/
def make_round (scoring_strategy : String) (round_num : Nat)
    (proposer_position : String) : DebateRound :=
  let proposer_arg : Argument :=
    { position := DebatePosition.proposer,
      content := "Round " ++ toString round_num ++ ": " ++ proposer_position,
      confidence_score := (0.8 : ℚ) + (round_num : ℚ) * 0.05 }
  let critic_arg : Argument :=
    { position := DebatePosition.critic,
      content := "Round " ++ toString round_num ++ ": Counter-argument",
      confidence_score := (0.7 : ℚ) + (round_num : ℚ) * 0.04 }
  { round_number := round_num,
    proposer_argument := proposer_arg,
    critic_argument := critic_arg,
    consensus_score :=
      debate_round_consensus scoring_strategy proposer_arg critic_arg }

/-- `self.rounds` after `run_debate`'s loop `for round_num in
range(1, self.num_rounds + 1)`. -/
def debate_rounds (num_rounds : Nat) (scoring_strategy : String)
    (proposer_position : String) : List DebateRound :=
  (List.range' 1 num_rounds).map
    (fun r => make_round scoring_strategy r proposer_position)

structure DebateResult where
  topic : String
  total_rounds : Nat
  avg_consensus_score : ℚ
  proposer_final_confidence : ℚ
  critic_final_confidence : ℚ
  consensus_reached : Bool
  rounds : List (Nat × ℚ)
  deriving DecidableEq

/-- `DebateOrchestrator._generate_consensus`.  On an empty round list
the Python code raises (`ZeroDivisionError` in the average, and
`self.rounds[-1]` would raise `IndexError`); that is modelled as
`none`. -/
def generate_consensus (rounds : List DebateRound) :
    Option DebateResult :=
  match rounds.getLast? with
  | none => none
  | some final_round =>
      let avg_consensus :=
        (rounds.map DebateRound.consensus_score).sum / (rounds.length : ℚ)
      some
        { topic := "Debate topic",
          total_rounds := rounds.length,
          avg_consensus_score := avg_consensus,
          proposer_final_confidence :=
            final_round.proposer_argument.confidence_score,
          critic_final_confidence :=
            final_round.critic_argument.confidence_score,
          consensus_reached := avg_consensus > 0.75,
          rounds := rounds.map
            (fun r => (r.round_number, r.consensus_score)) }

/-- `DebateOrchestrator.run_debate`: returns the result dict together
with the orchestrator's `self.rounds` list after the call (the topic
string in the result is the literal "Debate topic", as in the
source). -/
def run_debate (num_rounds : Nat) (scoring_strategy : String)
    (_topic proposer_position : String) :
    Option DebateResult × List DebateRound :=
  let rounds := debate_rounds num_rounds scoring_strategy proposer_position
  (generate_consensus rounds, rounds)

/-! ## Pipeline orchestrator (pipeline_pattern.py)

A data payload is an insertion-ordered string-keyed dict; schema
validation only tests key membership, so values are kept opaque as
strings.  A stage's abstract `execute` is a caller-supplied function
returning `none` for the failure signal. -/

/-- A pipeline data payload (`Dict[str, Any]`). -/
abbrev PipeData := List (String × String)

/-- Python `field in data` on a dict: key membership. -/
def hasField (d : PipeData) (f : String) : Bool :=
  d.any (fun p => p.1 = f)

structure SchemaValidation where
  required_fields : List String
  optional_fields : List String := []

/-- `SchemaValidation.validate`: all required fields present. -/
def validate (s : SchemaValidation) (d : PipeData) : Bool :=
  s.required_fields.all (fun f => hasField d f)

structure PipelineStage where
  name : String
  input_schema : SchemaValidation
  output_schema : SchemaValidation
  exec : PipeData → Option PipeData

/-- One entry of `self.execution_history`. -/
structure TraceEntry where
  stage : String
  data : PipeData
  deriving DecidableEq

/-- The stage loop of `PipelineOrchestrator.execute`: returns the
final result (`none` on any validation or execution failure) together
with the trace entries appended during this run. -/
def execute_stages (stages : List PipelineStage) (current_data : PipeData)
    (skip_stages : List String) : Option PipeData × List TraceEntry :=
  match stages with
  | [] => (some current_data, [])
  | stage :: rest =>
      if stage.name ∈ skip_stages then
        execute_stages rest current_data skip_stages
      else if ¬ validate stage.input_schema current_data then (none, [])
      else
        match stage.exec current_data with
        | none => (none, [])
        | some result =>
            if ¬ validate stage.output_schema result then (none, [])
            else
              let next := execute_stages rest result skip_stages
              (next.1, { stage := stage.name, data := result } :: next.2)

structure PipelineOrchestrator where
  name : String := "Pipeline"
  stages : List PipelineStage := []
  execution_history : List TraceEntry := []

/-- `PipelineOrchestrator.add_stage`. -/
def add_stage (o : PipelineOrchestrator) (s : PipelineStage) :
    PipelineOrchestrator :=
  { o with stages := o.stages ++ [s] }

/-- `PipelineOrchestrator.execute`: runs the stage loop and appends
this run's trace entries to the accumulated `execution_history`. -/
def pipeline_execute (o : PipelineOrchestrator) (initial_data : PipeData)
    (skip_stages : List String := []) :
    Option PipeData × PipelineOrchestrator :=
  let run := execute_stages o.stages initial_data skip_stages
  (run.1, { o with execution_history := o.execution_history ++ run.2 })

/-! ## Swarm engine (swarm_pattern.py)

Pheromone creation timestamps are omitted.  A Python set of visited
locations is modelled as a duplicate-free list in insertion order. -/

structure Pheromone where
  location : String
  value : ℚ
  age : Nat := 0
  deriving DecidableEq

structure SwarmAgent where
  agent_id : String
  position : String
  local_pheromones : List (String × ℚ) := []
  visited_locations : List String
  deriving DecidableEq

/-- `SwarmAgent.__init__` with its default starting position. -/
def mkSwarmAgent (agent_id : String)
    (initial_position : String := "origin") : SwarmAgent :=
  { agent_id := agent_id, position := initial_position,
    local_pheromones := [], visited_locations := [initial_position] }

/-- Set insertion `self.visited_locations.add(x)`. -/
def insertVisited (l : List String) (x : String) : List String :=
  if x ∈ l then l else l ++ [x]

/-- `SwarmAgent.sense_pheromones`: copy the environment snapshot. -/
def sense_pheromones (a : SwarmAgent) (env : List (String × ℚ)) :
    SwarmAgent :=
  { a with local_pheromones := env }

/-- `SwarmAgent.decide_next_location`: the location with the highest
sensed pheromone (Python `max` keeps the first maximal key); stay put
when nothing is sensed. -/
def decide_next_location (a : SwarmAgent) : String :=
  match firstMaxKey a.local_pheromones with
  | none => a.position
  | some best_location => best_location

/-- `SwarmAgent.move`. -/
def move (a : SwarmAgent) (new_position : String) : SwarmAgent :=
  { a with
      position := new_position,
      visited_locations := insertVisited a.visited_locations new_position }

structure SwarmIntelligence where
  agents : List SwarmAgent
  environment_pheromones : List (String × Pheromone) := []
  decay_rate : ℚ
  timestep : Nat := 0
  deriving DecidableEq

/-- `SwarmIntelligence.__init__`. -/
def mkSwarm (num_agents : Nat := 10) (decay_rate : ℚ := 0.1) :
    SwarmIntelligence :=
  { agents := (List.range num_agents).map
      (fun i => mkSwarmAgent ("agent_" ++ toString i)),
    environment_pheromones := [],
    decay_rate := decay_rate,
    timestep := 0 }

/-- The dict update inside `deposit_pheromone`: a location seen for the
first time stores the deposited value as given (no clamp); an existing
entry is increased additively with a ceiling of 1.0. -/
def depositUpd (l : List (String × Pheromone)) (location : String)
    (value : ℚ) : List (String × Pheromone) :=
  match l with
  | [] => [(location, { location := location, value := value, age := 0 })]
  | (k, p) :: rest =>
      if k = location then (k, { p with value := min 1 (p.value + value) }) :: rest
      else (k, p) :: depositUpd rest location value

/-- `SwarmIntelligence.deposit_pheromone`. -/
def deposit_pheromone (s : SwarmIntelligence) (location : String)
    (value : ℚ) : SwarmIntelligence :=
  { s with environment_pheromones :=
      depositUpd s.environment_pheromones location value }

/-- `SwarmIntelligence.evaporate_pheromones`: every entry's value is
multiplied by `1 - decay_rate` and its age incremented; no entry is
ever removed. -/
def evaporate_pheromones (s : SwarmIntelligence) : SwarmIntelligence :=
  { s with environment_pheromones := (s.environment_pheromones.map
      (fun kp => (kp.1, { kp.2 with
        value := kp.2.value * (1 - s.decay_rate),
        age := kp.2.age + 1 }))) }

/-- Loop body of `update_agent_positions` for one agent: sense the
(fixed) snapshot, decide, move, deposit 0.1 at the new location. -/
def agentStep (pheromone_map : List (String × ℚ))
    (acc : List SwarmAgent × List (String × Pheromone))
    (agent : SwarmAgent) :
    List SwarmAgent × List (String × Pheromone) :=
  let agent₁ := sense_pheromones agent pheromone_map
  let next_location := decide_next_location agent₁
  let agent₂ := move agent₁ next_location
  (acc.1 ++ [agent₂], depositUpd acc.2 next_location 0.1)

/-- `SwarmIntelligence.update_agent_positions`: the pheromone snapshot
is taken once before the loop; deposits made while iterating mutate the
environment but not the snapshot. -/
def update_agent_positions (s : SwarmIntelligence) : SwarmIntelligence :=
  let pheromone_map := s.environment_pheromones.map
      (fun kp => (kp.1, kp.2.value))
  let final := s.agents.foldl (agentStep pheromone_map)
      ([], s.environment_pheromones)
  { s with agents := final.1, environment_pheromones := final.2 }

structure IterationStats where
  timestep : Nat
  unique_locations : Nat
  convergence_ratio : ℚ
  avg_pheromone : ℚ
  deriving DecidableEq

/-- `SwarmIntelligence.run_iteration`: move all agents, evaporate,
advance the timestep, and report statistics.  (With zero agents the
Python code raises `ZeroDivisionError` computing the convergence
ratio; the claims below only concern swarms with at least one
agent.) -/
def run_iteration (s : SwarmIntelligence) :
    IterationStats × SwarmIntelligence :=
  let s₁ := update_agent_positions s
  let s₂ := evaporate_pheromones s₁
  let s₃ := { s₂ with timestep := s₂.timestep + 1 }
  let all_positions := s₃.agents.map SwarmAgent.position
  let unique_positions : Nat := all_positions.dedup.length
  let convergence_ratio : ℚ :=
    1 - ((unique_positions : ℚ) / (s₃.agents.length : ℚ))
  let avg_pheromone : ℚ :=
    (s₃.environment_pheromones.map (fun kp => kp.2.value)).sum /
      ((max 1 s₃.environment_pheromones.length : Nat) : ℚ)
  ({ timestep := s₃.timestep,
     unique_locations := unique_positions,
     convergence_ratio := convergence_ratio,
     avg_pheromone := avg_pheromone }, s₃)

/-- `SwarmIntelligence.is_converged`: estimated from current positions
only, `(distinct − 1) / max(1, agents − 1) ≤ 1 − threshold` (integer
subtraction as in Python, hence over ℤ). -/
def is_converged (s : SwarmIntelligence) (threshold : ℚ := 0.8) : Bool :=
  let all_positions := s.agents.map SwarmAgent.position
  let u : ℤ := all_positions.dedup.length
  let n : ℤ := s.agents.length
  let convergence : ℚ := ((u - 1 : ℤ) : ℚ) / (((max 1 (n - 1) : ℤ)) : ℚ)
  decide (convergence ≤ 1 - threshold)

/-- The `for _ in range(max_iterations)` loop of `swarm_optimization`:
stop as soon as `is_converged()` (default threshold) holds, else run an
iteration and continue. -/
def swarmOptLoop : Nat → SwarmIntelligence → SwarmIntelligence
  | 0, s => s
  | fuel + 1, s =>
      if is_converged s 0.8 then s
      else swarmOptLoop fuel (run_iteration s).2

/-- `swarm_optimization`: returns `swarm.agents[0].position` after the
loop (`none` models the `IndexError` on an empty swarm) together with
the final swarm state. -/
def swarm_optimization (swarm : SwarmIntelligence)
    (max_iterations : Nat := 100) :
    Option String × SwarmIntelligence :=
  let s₁ := swarmOptLoop max_iterations swarm
  (s₁.agents.head?.map SwarmAgent.position, s₁)

/-! ## Concrete fixtures used by witnesses and counterexamples -/

/-- The weighted-confidence example vote log
`{(A,0.9), (A,0.8), (B,0.6)}`. -/
def votesC4 : List Vote :=
  [{ agent_name := "a1", option := "A", confidence := 0.9 },
   { agent_name := "a2", option := "A", confidence := 0.8 },
   { agent_name := "a3", option := "B", confidence := 0.6 }]

/-- A stage mapping {"x": ...} to {"y": "1"}; its output satisfies its
output schema. -/
def pipeStageA : PipelineStage :=
  { name := "s1",
    input_schema := { required_fields := ["x"] },
    output_schema := { required_fields := ["y"] },
    exec := fun _ => some [("y", "1")] }

/-- A stage whose output {"w": "0"} is missing its required output
field "z". -/
def pipeStageB : PipelineStage :=
  { name := "s2",
    input_schema := { required_fields := ["y"] },
    output_schema := { required_fields := ["z"] },
    exec := fun _ => some [("w", "0")] }

/-- A worker with the "ml" expertise tag and no history. -/
def workerML : WorkerAgent :=
  { name := "w1", expertise := some "ml" }

/-- A second "ml" worker carrying one failure (load 1). -/
def workerML2 : WorkerAgent :=
  { name := "w2", expertise := some "ml", failed_tasks := 1 }

/-- A worker registered without any expertise tag. -/
def workerPlain : WorkerAgent :=
  { name := "w0" }

/-- Supervisor fixture with one untagged worker. -/
def supPlain : SupervisorAgent :=
  { name := "sup", workers := [workerPlain] }

/-- Supervisor fixture with one "ml" worker and `max_retries = 2`. -/
def supML : SupervisorAgent :=
  { name := "sup", workers := [workerML], max_retries := 2 }

/-- Supervisor fixture with two "ml" workers of different loads. -/
def supTwo : SupervisorAgent :=
  { name := "sup", workers := [workerML2, workerML] }

/-! ## Association-list lemmas -/

lemma assocGet_assocUpd {β : Type} (l : List (String × β)) (k o : String)
    (init : β) (f : β → β) :
    assocGet (assocUpd l k init f) o =
      if o = k then some (f ((assocGet l k).getD init)) else assocGet l o := by
  induction l with
  | nil =>
      by_cases h : o = k
      · simp [assocUpd, assocGet, h]
      · simp [assocUpd, assocGet, h, Ne.symm h]
  | cons hd tl ih =>
      obtain ⟨k₀, v₀⟩ := hd
      by_cases hk : k₀ = k
      · subst hk
        by_cases ho : o = k₀
        · simp [assocUpd, assocGet, ho]
        · simp [assocUpd, assocGet, ho, Ne.symm ho]
      · by_cases ho : o = k₀
        · subst ho
          simp [assocUpd, assocGet, hk, Ne.symm hk]
        · simp [assocUpd, assocGet, hk, ho, Ne.symm ho, ih]

lemma assocUpd_keys {β : Type} (l : List (String × β)) (k : String)
    (init : β) (f : β → β) :
    (assocUpd l k init f).map Prod.fst =
      if k ∈ l.map Prod.fst then l.map Prod.fst
      else l.map Prod.fst ++ [k] := by
  induction l with
  | nil => simp [assocUpd]
  | cons hd tl ih =>
      obtain ⟨k₀, v₀⟩ := hd
      by_cases hk : k₀ = k
      · subst hk
        simp [assocUpd]
      · by_cases hmem : k ∈ tl.map Prod.fst <;>
          simp [assocUpd, hk, Ne.symm hk, hmem, ih]

lemma assocUpd_keys_nodup {β : Type} (l : List (String × β)) (k : String)
    (init : β) (f : β → β) (h : (l.map Prod.fst).Nodup) :
    ((assocUpd l k init f).map Prod.fst).Nodup := by
  rw [assocUpd_keys]
  by_cases hmem : k ∈ l.map Prod.fst
  · simpa [hmem] using h
  · simp only [hmem, if_false]
    exact List.Nodup.append h (List.nodup_singleton k)
      (by simpa using hmem)

lemma assocGet_of_mem {β : Type} (l : List (String × β))
    (hnd : (l.map Prod.fst).Nodup) (p : String × β) (hp : p ∈ l) :
    assocGet l p.1 = some p.2 := by
  induction l with
  | nil => cases hp
  | cons hd tl ih =>
      obtain ⟨k₀, v₀⟩ := hd
      rcases List.mem_cons.mp hp with h | h
      · subst h
        simp [assocGet]
      · have hk : p.1 ≠ k₀ := by
          intro heq
          have : p.1 ∈ tl.map Prod.fst := List.mem_map_of_mem Prod.fst h
          rw [heq] at this
          exact (List.nodup_cons.mp hnd).1 this
        simp [assocGet, hk, Ne.symm hk]
        exact ih (List.nodup_cons.mp hnd).2 h

lemma assocUpd_ne_nil {β : Type} (l : List (String × β)) (k : String)
    (init : β) (f : β → β) : assocUpd l k init f ≠ [] := by
  cases l with
  | nil => simp [assocUpd]
  | cons hd tl =>
      obtain ⟨k₀, v₀⟩ := hd
      by_cases hk : k₀ = k <;> simp [assocUpd, hk]

/-! ## Invariants of the per-option tally folds -/

lemma foldl_assocUpd_get {β : Type} [AddCommMonoid β] (contrib : Vote → β)
    (votes : List Vote) (acc : List (String × β)) (o : String) :
    assocGet (votes.foldl
        (fun a v => assocUpd a v.option 0 (· + contrib v)) acc) o =
      if votes.any (fun v => v.option = o) then
        some ((assocGet acc o).getD 0 +
          ((votes.filter (fun v => v.option = o)).map contrib).sum)
      else assocGet acc o := by
  induction votes generalizing acc with
  | nil => simp
  | cons v rest ih =>
      rw [List.foldl_cons, ih, assocGet_assocUpd]
      by_cases hv : v.option = o
      · subst hv
        by_cases hrest : rest.any (fun u => u.option = v.option)
        · simp [hrest, List.filter_cons, add_assoc]
        · have hfil : rest.filter (fun u => u.option = v.option) = [] := by
            rw [List.filter_eq_nil_iff]
            intro a ha hcontra
            exact hrest (List.any_eq_true.mpr
              ⟨a, ha, by simpa using hcontra⟩)
          simp [hrest, List.filter_cons, hfil]
      · have ho : ¬ o = v.option := fun h => hv h.symm
        by_cases hrest : rest.any (fun u => u.option = o)
        · simp [hv, ho, hrest, List.filter_cons]
        · simp [hv, ho, hrest]

lemma foldl_assocUpd_keys_nodup {β : Type} [AddCommMonoid β]
    (contrib : Vote → β)
    (votes : List Vote) (acc : List (String × β))
    (h : (acc.map Prod.fst).Nodup) :
    (((votes.foldl
        (fun a v => assocUpd a v.option 0 (· + contrib v)) acc)).map
        Prod.fst).Nodup := by
  induction votes generalizing acc with
  | nil => simpa using h
  | cons v rest ih =>
      rw [List.foldl_cons]
      exact ih _ (assocUpd_keys_nodup _ _ _ _ h)

lemma foldl_assocUpd_ne_nil {β : Type} [AddCommMonoid β]
    (contrib : Vote → β)
    (votes : List Vote) (acc : List (String × β)) (h : acc ≠ []) :
    votes.foldl (fun a v => assocUpd a v.option 0 (· + contrib v)) acc ≠ [] := by
  induction votes generalizing acc with
  | nil => simpa using h
  | cons v rest ih =>
      rw [List.foldl_cons]
      exact ih _ (assocUpd_ne_nil _ _ _ _)

lemma assocUpd_sum_snd {β : Type} [AddCommMonoid β]
    (l : List (String × β)) (k : String) (c : β) :
    ((assocUpd l k 0 (· + c)).map Prod.snd).sum =
      (l.map Prod.snd).sum + c := by
  induction l with
  | nil => simp [assocUpd]
  | cons hd tl ih =>
      obtain ⟨k₀, v₀⟩ := hd
      by_cases hk : k₀ = k
      · simp [assocUpd, hk, add_assoc, add_comm]
      · simp [assocUpd, hk, ih, add_assoc]

lemma foldl_assocUpd_sum {β : Type} [AddCommMonoid β] (contrib : Vote → β)
    (votes : List Vote) (acc : List (String × β)) :
    (((votes.foldl
        (fun a v => assocUpd a v.option 0 (· + contrib v)) acc)).map
        Prod.snd).sum =
      (acc.map Prod.snd).sum + (votes.map contrib).sum := by
  induction votes generalizing acc with
  | nil => simp
  | cons v rest ih =>
      rw [List.foldl_cons, ih, assocUpd_sum_snd]
      rw [List.map_cons, List.sum_cons, add_assoc, add_comm (contrib v)]

/-! ## First-minimum / first-maximum characterization of Python
`min(..., key=...)` and `max(..., key=...)` folds -/

lemma pickMinBy_le_head {α β : Type} [LinearOrder β] (key : α → β)
    (b : α) (l : List α) : key (pickMinBy key b l) ≤ key b := by
  induction l generalizing b with
  | nil => simp [pickMinBy]
  | cons q rest ih =>
      rw [pickMinBy]
      by_cases hq : key q < key b
      · simp only [hq, if_pos]
        exact le_trans (ih q) (le_of_lt hq)
      · simpa [hq] using ih b

lemma pickMinBy_le {α β : Type} [LinearOrder β] (key : α → β)
    (b : α) (l : List α) :
    ∀ x ∈ b :: l, key (pickMinBy key b l) ≤ key x := by
  induction l generalizing b with
  | nil =>
      intro x hx
      rcases List.mem_cons.mp hx with h | h
      · subst h; simp [pickMinBy]
      · cases h
  | cons q rest ih =>
      intro x hx
      rw [pickMinBy]
      rcases List.mem_cons.mp hx with h | h
      · subst h
        by_cases hq : key q < key x
        · simpa [hq] using le_trans (pickMinBy_le_head key q rest) (le_of_lt hq)
        · simpa [hq] using pickMinBy_le_head key x rest
      · rcases List.mem_cons.mp h with h₁ | h₁
        · subst h₁
          by_cases hq : key x < key b
          · simpa [hq] using pickMinBy_le_head key x rest
          · have := pickMinBy_le_head key b rest
            simpa [hq] using le_trans this (le_of_not_lt hq)
        · by_cases hq : key q < key b
          · simpa [hq] using ih q x (List.mem_cons_of_mem q h₁)
          · simpa [hq] using ih b x (List.mem_cons_of_mem b h₁)

lemma pickMinBy_decomp {α β : Type} [LinearOrder β] (key : α → β)
    (b : α) (l : List α) :
    ∃ pre post, b :: l = pre ++ pickMinBy key b l :: post ∧
      ∀ x ∈ pre, key (pickMinBy key b l) < key x := by
  induction l generalizing b with
  | nil => exact ⟨[], [], rfl, by simp⟩
  | cons q rest ih =>
      rw [pickMinBy]
      by_cases hq : key q < key b
      · simp only [hq, if_pos]
        obtain ⟨pre, post, hsplit, hpre⟩ := ih q
        refine ⟨b :: pre, post, ?_, ?_⟩
        · rw [List.cons_append, ← hsplit]
        · intro x hx
          rcases List.mem_cons.mp hx with h | h
          · subst h
            exact lt_of_le_of_lt (pickMinBy_le_head key q rest) hq
          · exact hpre x h
      · simp only [hq, if_neg, if_false]
        obtain ⟨pre, post, hsplit, hpre⟩ := ih b
        cases pre with
        | nil =>
            simp only [List.nil_append] at hsplit
            have hb : pickMinBy key b rest = b :=
              (List.head_eq_of_cons_eq hsplit).symm
            exact ⟨[], q :: rest, by rw [List.nil_append, hb], by simp⟩
        | cons a pre₁ =>
            have ha : a = b := (List.head_eq_of_cons_eq hsplit.symm)
            subst ha
            have htl : rest = pre₁ ++ pickMinBy key a rest :: post :=
              List.tail_eq_of_cons_eq hsplit
            refine ⟨a :: q :: pre₁, post, ?_, ?_⟩
            · rw [List.cons_append, List.cons_append, ← htl]
            · intro x hx
              rcases List.mem_cons.mp hx with h | h
              · subst h
                exact hpre x (List.mem_cons_self _ _)
              · rcases List.mem_cons.mp h with h₁ | h₁
                · subst h₁
                  exact lt_of_lt_of_le
                    (hpre a (List.mem_cons_self _ _)) (le_of_not_lt hq)
                · exact hpre x (List.mem_cons_of_mem a h₁)

/-! ## Claim C9: status-query idempotence -/

/-- C9: `get_status` on a supervisor and `calculate_consensus` on a
consensus engine are read-only queries: calling either twice with no
intervening mutation yields the same result both times, and neither
call changes the engine state it was given. -/
theorem C9_status_queries_idempotent (s : SupervisorAgent)
    (e : ConsensusEngine) :
    (get_statusM (get_statusM s).2).1 = (get_statusM s).1 ∧
    (get_statusM s).2 = s ∧
    (get_statusM (get_statusM s).2).2 = s ∧
    (calculate_consensusM (calculate_consensusM e).2).1 =
      (calculate_consensusM e).1 ∧
    (calculate_consensusM e).2 = e ∧
    (calculate_consensusM (calculate_consensusM e).2).2 = e :=
  ⟨rfl, rfl, rfl, rfl, rfl, rfl⟩

/-! ## Claim C6: executing an empty pipeline -/

/-- C6 counterexample: executing a pipeline with an empty stage list
does NOT return the absent result: on input `{"x": "1"}` it returns
that input unchanged (the claim asserts it returns `None`). -/
theorem C6_counterexample :
    (pipeline_execute { stages := [] } [("x", "1")] []).1 =
        some [("x", "1")] ∧
      some [("x", "1")] ≠ (none : Option PipeData) :=
  ⟨rfl, by simp⟩

/-- C6 (amended): executing a pipeline whose stage list is empty
returns the original input payload unchanged (never an exception and
never the absent result), for every input payload and skip set, and
leaves the orchestrator state untouched. -/
theorem C6_empty_pipeline (o : PipelineOrchestrator) (d : PipeData)
    (skip : List String) (h : o.stages = []) :
    pipeline_execute o d skip = (some d, o) := by
  simp [pipeline_execute, execute_stages, h]
  rw [← h]

/-- C6 witness: the amended theorem applied to a concrete empty
pipeline and payload. -/
theorem C6_witness :
    pipeline_execute { stages := [] } [("k", "v")] [] =
      (some [("k", "v")], { stages := [] }) :=
  C6_empty_pipeline { stages := [] } [("k", "v")] [] rfl

/-! ## Claim C5: unanimous strategy -/

/-- C5: under the unanimous strategy with a non-empty vote log,
`calculate_consensus` reports the first vote's option with
`unanimous = true` exactly when every recorded vote chose that option;
if at least one vote differs the result is no consensus with
`unanimous = false`. -/
theorem C5_unanimous_iff (e : ConsensusEngine) (v₀ : Vote)
    (rest : List Vote)
    (hstrat : e.strategy = VotingStrategy.unanimous)
    (hv : e.votes = v₀ :: rest) :
    (calculate_consensus e =
        ConsensusResult.unanimousRes (some v₀.option) true ↔
      ∀ v ∈ e.votes, v.option = v₀.option) ∧
    ((∃ v ∈ e.votes, v.option ≠ v₀.option) →
      calculate_consensus e = ConsensusResult.unanimousRes none false) := by
  have hne : ¬ e.votes = [] := by rw [hv]; simp
  by_cases hall : ∀ v ∈ e.votes, v.option = v₀.option
  · have hb : (v₀ :: rest).all (fun v => v.option = v₀.option) = true := by
      rw [List.all_eq_true]
      intro v hvmem
      rw [← hv] at hvmem
      simpa using hall v hvmem
    constructor
    · simp [calculate_consensus, hne, hstrat, hv, unanimous_consensus, hb,
        hall]
      intro a ha
      exact hall a (by rw [hv]; exact List.mem_cons_of_mem _ ha)
    · rintro ⟨v, hvmem, hvne⟩
      exact absurd (hall v hvmem) hvne
  · have hb : (v₀ :: rest).all (fun v => v.option = v₀.option) = false := by
      rw [List.all_eq_false]
      push_neg at hall
      obtain ⟨v, hvmem, hvne⟩ := hall
      rw [hv] at hvmem
      exact ⟨v, hvmem, by simpa using hvne⟩
    constructor
    · simp [calculate_consensus, hne, hstrat, hv, unanimous_consensus, hb,
        hall]
      push_neg at hall
      obtain ⟨v, hvmem, hvne⟩ := hall
      rw [hv] at hvmem
      rcases List.mem_cons.mp hvmem with h₁ | h₁
      · exact absurd (by rw [h₁]) hvne
      · exact ⟨v, h₁, hvne⟩
    · intro _
      simp [calculate_consensus, hne, hstrat, hv, unanimous_consensus, hb]

/-- C5 witness: two votes on different options yield no consensus with
`unanimous = false`. -/
theorem C5_witness :
    calculate_consensus
        { strategy := VotingStrategy.unanimous,
          votes := [{ agent_name := "a1", option := "X", confidence := 1 },
                    { agent_name := "a2", option := "Y", confidence := 1 }] } =
      ConsensusResult.unanimousRes none false :=
  (C5_unanimous_iff _ _ _ rfl rfl).2
    ⟨{ agent_name := "a2", option := "Y", confidence := 1 },
      by simp, by decide⟩

/-! ## Claim C7: per-round reporting and average consensus -/

lemma debate_rounds_length (R : Nat) (strat pos : String) :
    (debate_rounds R strat pos).length = R := by
  simp [debate_rounds]

lemma debate_rounds_numbers (R : Nat) (strat pos : String) :
    (debate_rounds R strat pos).map DebateRound.round_number =
      List.range' 1 R := by
  rw [debate_rounds, List.map_map]
  have h : DebateRound.round_number ∘ (fun r => make_round strat r pos) =
      fun r => r := by
    funext r
    rfl
  rw [h, List.map_id']

/-- C7: for every `num_rounds = R ≥ 1`, `run_debate` reports some
result whose per-round list has exactly R entries numbered 1..R in
order, whose `avg_consensus_score` is the arithmetic mean of those R
entries' consensus scores, and whose `consensus_reached` flag holds
exactly when that mean exceeds 0.75. -/
theorem C7_debate_reporting (R : Nat) (strat topic pos : String)
    (hR : 1 ≤ R) :
    ∃ res : DebateResult,
      (run_debate R strat topic pos).1 = some res ∧
      res.total_rounds = R ∧
      res.rounds.length = R ∧
      res.rounds.map Prod.fst = List.range' 1 R ∧
      res.avg_consensus_score = (res.rounds.map Prod.snd).sum / (R : ℚ) ∧
      (res.consensus_reached = true ↔
        (res.rounds.map Prod.snd).sum / (R : ℚ) > 0.75) := by
  have hne : debate_rounds R strat pos ≠ [] := by
    intro hnil
    have hlen := debate_rounds_length R strat pos
    rw [hnil] at hlen
    simp at hlen
    omega
  obtain ⟨fr, hfr⟩ :=
    Option.isSome_iff_exists.mp (List.getLast?_isSome.mpr hne)
  have hsnd : ((debate_rounds R strat pos).map
      (fun r => (r.round_number, r.consensus_score))).map Prod.snd =
      (debate_rounds R strat pos).map DebateRound.consensus_score := by
    rw [List.map_map]
    rfl
  refine
    ⟨{ topic := "Debate topic",
       total_rounds := (debate_rounds R strat pos).length,
       avg_consensus_score :=
         ((debate_rounds R strat pos).map DebateRound.consensus_score).sum /
           ((debate_rounds R strat pos).length : ℚ),
       proposer_final_confidence := fr.proposer_argument.confidence_score,
       critic_final_confidence := fr.critic_argument.confidence_score,
       consensus_reached :=
         ((debate_rounds R strat pos).map DebateRound.consensus_score).sum /
             ((debate_rounds R strat pos).length : ℚ) > 0.75,
       rounds := (debate_rounds R strat pos).map
         (fun r => (r.round_number, r.consensus_score)) },
     ?_, ?_, ?_, ?_, ?_, ?_⟩
  · simp only [run_debate, generate_consensus, hfr]
  · exact debate_rounds_length R strat pos
  · simp [debate_rounds_length R strat pos]
  · show ((debate_rounds R strat pos).map
        (fun r => (r.round_number, r.consensus_score))).map Prod.fst = _
    rw [List.map_map]
    have h : Prod.fst ∘ (fun r : DebateRound =>
        (r.round_number, r.consensus_score)) = DebateRound.round_number := rfl
    rw [h, debate_rounds_numbers]
  · show _ = (((debate_rounds R strat pos).map
        (fun r => (r.round_number, r.consensus_score))).map Prod.snd).sum / _
    rw [hsnd, debate_rounds_length R strat pos]
  · show (decide _ = true) ↔ _
    rw [decide_eq_true_iff, hsnd, debate_rounds_length R strat pos]

/-- C7 witness: the theorem applied at `R = 2` with the default
entropy-reduction scoring. -/
theorem C7_witness :
    ∃ res : DebateResult,
      (run_debate 2 "entropy_reduction" "t" "p").1 = some res ∧
      res.total_rounds = 2 ∧
      res.rounds.length = 2 ∧
      res.rounds.map Prod.fst = List.range' 1 2 ∧
      res.avg_consensus_score = (res.rounds.map Prod.snd).sum / (2 : ℚ) ∧
      (res.consensus_reached = true ↔
        (res.rounds.map Prod.snd).sum / (2 : ℚ) > 0.75) :=
  C7_debate_reporting 2 "entropy_reduction" "t" "p" (by decide)

/-! ## Claim C1: value-range invariants -/

/-- All pheromone values of an environment list lie in [0,1]. -/
def envInRange (l : List (String × Pheromone)) : Prop :=
  ∀ p ∈ l, 0 ≤ p.2.value ∧ p.2.value ≤ 1

lemma depositUpd_range (l : List (String × Pheromone)) (loc : String)
    (val : ℚ) (h0 : 0 ≤ val) (h1 : val ≤ 1) (hl : envInRange l) :
    envInRange (depositUpd l loc val) := by
  induction l with
  | nil =>
      intro p hp
      simp [depositUpd] at hp
      subst hp
      exact ⟨h0, h1⟩
  | cons hd tl ih =>
      obtain ⟨k, q⟩ := hd
      by_cases hk : k = loc
      · intro p hp
        simp only [depositUpd, hk, if_pos] at hp
        rcases List.mem_cons.mp hp with h | h
        · subst h
          constructor
          · have hq := (hl (k, q) (List.mem_cons_self _ _)).1
            exact le_min (by norm_num) (add_nonneg hq h0)
          · exact min_le_left _ _
        · exact hl p (List.mem_cons_of_mem _ h)
      · intro p hp
        simp only [depositUpd, hk, if_neg, if_false] at hp
        rcases List.mem_cons.mp hp with h | h
        · subst h
          exact hl (k, q) (List.mem_cons_self _ _)
        · exact ih (fun u hu => hl u (List.mem_cons_of_mem _ hu)) p h

lemma evaporate_range (s : SwarmIntelligence) (h0 : 0 ≤ s.decay_rate)
    (h1 : s.decay_rate ≤ 1) (hl : envInRange s.environment_pheromones) :
    envInRange (evaporate_pheromones s).environment_pheromones := by
  intro p hp
  simp only [evaporate_pheromones, List.mem_map] at hp
  obtain ⟨q, hq, hpq⟩ := hp
  obtain ⟨hq0, hq1⟩ := hl q hq
  subst hpq
  constructor
  · exact mul_nonneg hq0 (by linarith)
  · exact mul_le_one₀ hq1 (by linarith) (by linarith)

lemma foldl_agentStep_range (pm : List (String × ℚ))
    (agents : List SwarmAgent)
    (acc : List SwarmAgent × List (String × Pheromone))
    (hE : envInRange acc.2) :
    envInRange ((agents.foldl (agentStep pm) acc).2) := by
  induction agents generalizing acc with
  | nil => simpa using hE
  | cons a rest ih =>
      rw [List.foldl_cons]
      exact ih _ (depositUpd_range _ _ _ (by norm_num) (by norm_num) hE)

lemma update_agent_positions_range (s : SwarmIntelligence)
    (hl : envInRange s.environment_pheromones) :
    envInRange (update_agent_positions s).environment_pheromones :=
  foldl_agentStep_range _ s.agents ([], s.environment_pheromones) hl

/-- C1 counterexample: the claimed [0,1] bound fails on the code in
two places.  `run_debate` with `num_rounds = 5` stores a round-5
proposer argument with confidence `0.8 + 5·0.05 = 1.05 > 1`, and a
first pheromone deposit of magnitude 5 at a fresh location stores the
raw value 5 > 1 (deposit only clamps the additive update of an
existing entry). -/
theorem C1_counterexample :
    (∃ r ∈ (run_debate 5 "entropy_reduction" "t" "p").2,
      r.proposer_argument.confidence_score > 1) ∧
    ∃ p ∈ (deposit_pheromone
        { agents := [], decay_rate := 0.1 } "loc" 5).environment_pheromones,
      p.2.value > 1 := by
  constructor
  · refine ⟨make_round "entropy_reduction" 5 "p", ?_, ?_⟩
    · simp only [run_debate, debate_rounds]
      exact List.mem_map_of_mem _ (by decide)
    · show (0.8 : ℚ) + (5 : Nat) * 0.05 > 1
      norm_num
  · refine ⟨("loc", { location := "loc", value := 5, age := 0 }), ?_, ?_⟩
    · simp [deposit_pheromone, depositUpd]
    · norm_num

/-- C1 (amended): vote confidences are clamped into [0,1] by
`add_vote`; the pheromone [0,1] range is an invariant of deposit,
evaporation and `run_iteration` provided each externally deposited
value lies in [0,1] and `decay_rate ∈ [0,1]` (the code clamps only the
additive update of an existing entry, so a first deposit must already
be in range); debate argument confidences stay within [0,1] whenever
`num_rounds ≤ 4` (from round 5 on the proposer's synthetic confidence
`0.8 + 0.05·round` exceeds 1). -/
theorem C1_value_ranges :
    (∀ (e : ConsensusEngine) (a o : String) (c : ℚ) (r : String),
      (∀ v ∈ e.votes, 0 ≤ v.confidence ∧ v.confidence ≤ 1) →
      ∀ v ∈ (add_vote e a o c r).votes,
        0 ≤ v.confidence ∧ v.confidence ≤ 1) ∧
    (∀ (s : SwarmIntelligence) (loc : String) (val : ℚ),
      0 ≤ val → val ≤ 1 → envInRange s.environment_pheromones →
      envInRange (deposit_pheromone s loc val).environment_pheromones) ∧
    (∀ s : SwarmIntelligence, 0 ≤ s.decay_rate → s.decay_rate ≤ 1 →
      envInRange s.environment_pheromones →
      envInRange (run_iteration s).2.environment_pheromones) ∧
    (∀ (R : Nat) (strat t pos : String), R ≤ 4 →
      ∀ r ∈ (run_debate R strat t pos).2,
        0 ≤ r.proposer_argument.confidence_score ∧
        r.proposer_argument.confidence_score ≤ 1 ∧
        0 ≤ r.critic_argument.confidence_score ∧
        r.critic_argument.confidence_score ≤ 1) := by
  refine ⟨?_, ?_, ?_, ?_⟩
  · intro e a o c r hold v hv
    rw [add_vote] at hv
    rcases List.mem_append.mp hv with h | h
    · exact hold v h
    · have hv2 : v.confidence = max 0 (min 1 c) := by
        simp at h
        rw [h]
      rw [hv2]
      exact ⟨le_max_left _ _,
        max_le (by norm_num) (min_le_left _ _)⟩
  · intro s loc val h0 h1 hl
    exact depositUpd_range _ _ _ h0 h1 hl
  · intro s h0 h1 hl
    have henv : (run_iteration s).2.environment_pheromones =
        (evaporate_pheromones
          (update_agent_positions s)).environment_pheromones := rfl
    rw [henv]
    exact evaporate_range _ h0 h1 (update_agent_positions_range s hl)
  · intro R strat t pos hR r hr
    simp only [run_debate, debate_rounds, List.mem_map] at hr
    obtain ⟨i, hi, hmk⟩ := hr
    have hiR : i ≤ R := by
      have := List.mem_range'_1.mp hi
      omega
    have hi4 : (i : ℚ) ≤ 4 := by
      have : i ≤ 4 := le_trans hiR hR
      exact_mod_cast this
    have hi0 : (0 : ℚ) ≤ (i : ℚ) := by positivity
    subst hmk
    refine ⟨?_, ?_, ?_, ?_⟩
    · show (0 : ℚ) ≤ 0.8 + (i : ℚ) * 0.05
      linarith
    · show (0.8 : ℚ) + (i : ℚ) * 0.05 ≤ 1
      linarith
    · show (0 : ℚ) ≤ 0.7 + (i : ℚ) * 0.04
      linarith
    · show (0.7 : ℚ) + (i : ℚ) * 0.04 ≤ 1
      linarith

/-- C1 witness: the amended invariants applied concretely — an
out-of-range vote confidence 7 is stored clamped, and a 3-round debate
keeps all argument confidences within [0,1]. -/
theorem C1_witness :
    (∀ v ∈ (add_vote { strategy := VotingStrategy.weighted_confidence,
                       votes := [] } "a" "X" 7 "").votes,
      0 ≤ v.confidence ∧ v.confidence ≤ 1) ∧
    ∀ r ∈ (run_debate 3 "entropy_reduction" "t" "p").2,
      0 ≤ r.proposer_argument.confidence_score ∧
      r.proposer_argument.confidence_score ≤ 1 ∧
      0 ≤ r.critic_argument.confidence_score ∧
      r.critic_argument.confidence_score ≤ 1 :=
  ⟨C1_value_ranges.1 _ "a" "X" 7 "" (by simp),
   C1_value_ranges.2.2.2 3 "entropy_reduction" "t" "p" (by norm_num)⟩

/-! ## Claim C10: a freshly constructed swarm is already converged -/

lemma dedup_replicate (n : Nat) (x : String) (h : 1 ≤ n) :
    (List.replicate n x).dedup = [x] := by
  induction n with
  | zero => omega
  | succ m ih =>
      cases Nat.eq_or_lt_of_le h with
      | inl h1 =>
          rw [← h1]
          simp
      | inr h1 =>
          have hm : 1 ≤ m := by omega
          rw [List.replicate_succ,
            List.dedup_cons_of_mem (by simp [List.mem_replicate]; omega),
            ih hm]

lemma mkSwarm_positions (n : Nat) (d : ℚ) :
    (mkSwarm n d).agents.map SwarmAgent.position =
      List.replicate n "origin" := by
  refine List.eq_replicate_iff.mpr ⟨by simp [mkSwarm], ?_⟩
  intro b hb
  simp only [mkSwarm, List.map_map, List.mem_map] at hb
  obtain ⟨i, _, hb⟩ := hb
  rw [← hb]
  rfl

lemma is_converged_mkSwarm (n : Nat) (d : ℚ) (h : 1 ≤ n) :
    is_converged (mkSwarm n d) 0.8 = true := by
  simp only [is_converged, mkSwarm_positions n d, dedup_replicate n _ h]
  rw [decide_eq_true_iff]
  norm_num

lemma swarmOptLoop_converged (k : Nat) (s : SwarmIntelligence)
    (h : is_converged s 0.8 = true) : swarmOptLoop k s = s := by
  cases k with
  | zero => rfl
  | succ m => simp [swarmOptLoop, h]

/-- C10: for every `num_agents = n ≥ 1` a freshly constructed swarm
places every agent at the default position "origin", is already
converged at threshold 0.8 (its convergence estimate is
`(1−1)/max(1, n−1) = 0 ≤ 0.2`), and `swarm_optimization` on it returns
"origin" without running a single iteration: the swarm state it leaves
behind is the fresh state itself, with timestep 0 and an empty
pheromone map. -/
theorem C10_fresh_swarm_converged (n : Nat) (d : ℚ) (k : Nat)
    (h : 1 ≤ n) :
    ((mkSwarm n d).agents.all (fun a => a.position = "origin")) = true ∧
    is_converged (mkSwarm n d) 0.8 = true ∧
    swarm_optimization (mkSwarm n d) k = (some "origin", mkSwarm n d) ∧
    (mkSwarm n d).timestep = 0 ∧
    (mkSwarm n d).environment_pheromones = [] := by
  have hconv := is_converged_mkSwarm n d h
  refine ⟨?_, hconv, ?_, rfl, rfl⟩
  · rw [List.all_eq_true]
    intro a ha
    simp only [mkSwarm, List.mem_map] at ha
    obtain ⟨i, _, ha⟩ := ha
    rw [← ha]
    exact decide_eq_true rfl
  · have hloop := swarmOptLoop_converged k (mkSwarm n d) hconv
    have hhead : (mkSwarm n d).agents.head?.map SwarmAgent.position =
        some "origin" := by
      rw [← List.head?_map, mkSwarm_positions n d]
      cases n with
      | zero => omega
      | succ m => rfl
    simp only [swarm_optimization, hloop, hhead]

/-- C10 witness: a fresh two-agent swarm with the default decay rate,
driven for up to five iterations. -/
theorem C10_witness :
    ((mkSwarm 2 0.1).agents.all (fun a => a.position = "origin")) = true ∧
    is_converged (mkSwarm 2 0.1) 0.8 = true ∧
    swarm_optimization (mkSwarm 2 0.1) 5 = (some "origin", mkSwarm 2 0.1) ∧
    (mkSwarm 2 0.1).timestep = 0 ∧
    (mkSwarm 2 0.1).environment_pheromones = [] :=
  C10_fresh_swarm_converged 2 0.1 5 (by decide)

/-! ## Claim C2: output-validation failure aborts the pipeline -/

lemma execute_stages_append_some (xs ys : List PipelineStage)
    (d₀ d : PipeData) (skip : List String) (tr : List TraceEntry)
    (h : execute_stages xs d₀ skip = (some d, tr)) :
    execute_stages (xs ++ ys) d₀ skip =
      ((execute_stages ys d skip).1, tr ++ (execute_stages ys d skip).2) := by
  induction xs generalizing d₀ tr with
  | nil =>
      simp only [execute_stages, Prod.mk.injEq] at h
      obtain ⟨h1, h2⟩ := h
      cases h1
      rw [← h2]
      simp
  | cons s rest ih =>
      by_cases hskip : s.name ∈ skip
      · simp only [execute_stages, hskip, if_pos, List.cons_append] at h ⊢
        exact ih d₀ tr h
      · by_cases hval : validate s.input_schema d₀
        · cases hex : s.exec d₀ with
          | none =>
              simp [execute_stages, hskip, hval, hex] at h
          | some r =>
              by_cases hout : validate s.output_schema r
              · simp only [execute_stages, hskip, hval, hex, hout,
                  not_true, if_neg, if_false, List.cons_append,
                  not_false_eq_true, if_true, Prod.mk.injEq] at h ⊢
                obtain ⟨h1, h2⟩ := h
                have ih2 := ih r (execute_stages rest r skip).2
                  (by rw [← h1])
                rw [show rest.append ys = rest ++ ys from rfl, ih2, ← h2]
                simp
              · simp [execute_stages, hskip, hval, hex, hout] at h
        · simp [execute_stages, hskip, hval] at h

lemma execute_stages_trace_success (xs : List PipelineStage)
    (d₀ d : PipeData) (skip : List String) (tr : List TraceEntry)
    (h : execute_stages xs d₀ skip = (some d, tr)) :
    tr.map TraceEntry.stage =
      (xs.filter (fun s => s.name ∉ skip)).map PipelineStage.name := by
  induction xs generalizing d₀ tr with
  | nil =>
      simp only [execute_stages, Prod.mk.injEq] at h
      rw [← h.2]
      simp
  | cons s rest ih =>
      by_cases hskip : s.name ∈ skip
      · simp only [execute_stages, hskip, if_pos] at h
        rw [List.filter_cons_of_neg (by simpa using hskip)]
        exact ih d₀ tr h
      · by_cases hval : validate s.input_schema d₀
        · cases hex : s.exec d₀ with
          | none =>
              simp [execute_stages, hskip, hval, hex] at h
          | some r =>
              by_cases hout : validate s.output_schema r
              · simp only [execute_stages, hskip, hval, hex, hout,
                  not_true, not_false_eq_true, if_true, if_false,
                  Prod.mk.injEq] at h
                obtain ⟨h1, h2⟩ := h
                rw [List.filter_cons_of_pos (by simpa using hskip), ← h2]
                simp only [List.map_cons]
                rw [ih r (execute_stages rest r skip).2 (by rw [← h1])]
              · simp [execute_stages, hskip, hval, hex, hout] at h
        · simp [execute_stages, hskip, hval] at h

/-- C2: if the stages before `s` run successfully from `d₀` to `d`
(producing trace `tr`), `s` is not skipped, `s`'s input validates,
`s` executes to output `r`, and `r` fails `s`'s output schema, then the
whole run returns the absent result, its trace is exactly `tr` — so
`s` and every stage after it contribute no trace entry — and `tr`
names exactly the non-skipped stages before `s`, in execution order. -/
theorem C2_output_validation_aborts (pre : List PipelineStage)
    (s : PipelineStage) (post : List PipelineStage) (d₀ d r : PipeData)
    (skip : List String) (tr : List TraceEntry)
    (hpre : execute_stages pre d₀ skip = (some d, tr))
    (hns : s.name ∉ skip)
    (hin : validate s.input_schema d = true)
    (hex : s.exec d = some r)
    (hout : validate s.output_schema r = false) :
    execute_stages (pre ++ s :: post) d₀ skip = (none, tr) ∧
    tr.map TraceEntry.stage =
      (pre.filter (fun st => st.name ∉ skip)).map PipelineStage.name := by
  constructor
  · rw [execute_stages_append_some pre (s :: post) d₀ d skip tr hpre]
    have hstage : execute_stages (s :: post) d skip = (none, []) := by
      simp [execute_stages, hns, hin, hex, hout]
    rw [hstage]
    simp
  · exact execute_stages_trace_success pre d₀ d skip tr hpre

/-- C2 witness: a two-stage pipeline where the second stage's output
is missing its required field "z"; the run aborts with the absent
result and the trace holds exactly the first stage. -/
theorem C2_witness :
    execute_stages [pipeStageA, pipeStageB] [("x", "0")] [] =
        (none, [{ stage := "s1", data := [("y", "1")] }]) ∧
      [TraceEntry.mk "s1" [("y", "1")]].map TraceEntry.stage =
        ([pipeStageA].filter
          (fun st => st.name ∉ ([] : List String))).map PipelineStage.name :=
  C2_output_validation_aborts [pipeStageA] pipeStageB [] [("x", "0")]
    [("y", "1")] [("w", "0")] [] [{ stage := "s1", data := [("y", "1")] }]
    (by decide) (by decide) (by decide) (by decide) (by decide)

/-! ## Claim C3: exhausted retries -/

lemma dictInsertTask_lookup (ts : List Task) (t : Task) :
    lookupTask (dictInsertTask ts t) t.task_id = some t := by
  induction ts with
  | nil => simp [dictInsertTask, lookupTask]
  | cons t₀ rest ih =>
      by_cases h : t₀.task_id = t.task_id
      · simp [dictInsertTask, lookupTask, h]
      · simp [dictInsertTask, lookupTask, h, ih]

lemma dictInsertTask_same_id (ts : List Task) (t₁ t₂ : Task)
    (h : t₁.task_id = t₂.task_id) :
    dictInsertTask (dictInsertTask ts t₁) t₂ = dictInsertTask ts t₂ := by
  induction ts with
  | nil => simp [dictInsertTask, h]
  | cons t₀ rest ih =>
      by_cases h₀ : t₀.task_id = t₁.task_id
      · simp [dictInsertTask, h₀, h, h₀.trans h]
      · have h₂ : ¬ t₀.task_id = t₂.task_id := by
          rw [← h]
          exact h₀
        simp [dictInsertTask, h₀, h₂, ih]

lemma updWorkerFirst_comp (ws : List WorkerAgent) (name : String)
    (f g : WorkerAgent → WorkerAgent)
    (hf : ∀ x, (f x).name = x.name) :
    updWorkerFirst (updWorkerFirst ws name f) name g =
      updWorkerFirst ws name (fun w => g (f w)) := by
  induction ws with
  | nil => simp [updWorkerFirst]
  | cons u rest ih =>
      by_cases h : u.name = name
      · simp [updWorkerFirst, h, hf u]
      · simp [updWorkerFirst, h, ih]

lemma lookupWorker_updWorkerFirst (ws : List WorkerAgent)
    (w : WorkerAgent) (f : WorkerAgent → WorkerAgent)
    (hnd : (ws.map WorkerAgent.name).Nodup) (hw : w ∈ ws)
    (hf : ∀ x, (f x).name = x.name) :
    lookupWorker (updWorkerFirst ws w.name f) w.name = some (f w) := by
  induction ws with
  | nil => cases hw
  | cons u rest ih =>
      by_cases h : u.name = w.name
      · have huw : u = w := by
          rcases List.mem_cons.mp hw with h₁ | h₁
          · exact h₁.symm
          · exfalso
            have : w.name ∈ rest.map WorkerAgent.name :=
              List.mem_map_of_mem WorkerAgent.name h₁
            rw [← h] at this
            exact (List.nodup_cons.mp hnd).1 this
        subst huw
        simp [updWorkerFirst, lookupWorker, h, hf u]
      · have hw₁ : w ∈ rest := by
          rcases List.mem_cons.mp hw with h₁ | h₁
          · exact absurd (congrArg WorkerAgent.name h₁.symm) h
          · exact h₁
        simp [updWorkerFirst, lookupWorker, h,
          ih (List.nodup_cons.mp hnd).2 hw₁]

lemma pickMinBy_mem {α β : Type} [LinearOrder β] (key : α → β)
    (b : α) (l : List α) : pickMinBy key b l ∈ b :: l := by
  obtain ⟨pre, post, hsplit, _⟩ := pickMinBy_decomp key b l
  rw [hsplit]
  exact List.mem_append.mpr (Or.inr (List.mem_cons_self _ _))

lemma select_worker_mem (sup : SupervisorAgent)
    (expertise : Option String) (w : WorkerAgent)
    (h : select_worker sup expertise = some w) : w ∈ sup.workers := by
  rw [select_worker] at h
  by_cases ht : truthy expertise
  · simp only [ht, if_pos] at h
    cases hc : sup.workers.filter (fun u => u.expertise = expertise) with
    | nil => rw [hc] at h; cases h
    | cons c rest =>
        rw [hc] at h
        have h₂ : some (pickMinBy get_load c rest) = some w := h
        have hmem := pickMinBy_mem get_load c rest
        rw [← hc] at hmem
        rw [← Option.some_inj.mp h₂]
        exact List.mem_of_mem_filter hmem
  · simp only [ht, if_neg, if_false] at h
    cases hc : sup.workers with
    | nil => rw [hc] at h; cases h
    | cons c rest =>
        rw [hc] at h
        have h₂ : some (pickMinBy get_load c rest) = some w := h
        rw [← Option.some_inj.mp h₂]
        exact pickMinBy_mem get_load c rest

lemma attemptLoop_all_timeout (outcomes : Nat → Option String)
    (wname : String) (attempts : List Nat) (t : Task)
    (s : SupervisorAgent) (hne : attempts ≠ [])
    (hTO : ∀ a ∈ attempts, outcomes a = none) :
    attemptLoop outcomes wname attempts t s =
      (none,
        { s with
            tasks := dictInsertTask s.tasks { t with status := "failed" },
            workers := (updWorkerFirst s.workers wname
              (fun w => { w with failed_tasks :=
                w.failed_tasks + attempts.length })) }) := by
  induction attempts generalizing t s with
  | nil => exact absurd rfl hne
  | cons a rest ih =>
      have ha : outcomes a = none := hTO a (List.mem_cons_self _ _)
      have hstep : attemptLoop outcomes wname (a :: rest) t s =
          attemptLoop outcomes wname rest { t with status := "failed" }
            (incFailed
              (setTask (setTask s { t with status := "running" })
                { t with status := "failed" }) wname) := by
        rw [attemptLoop, ha]
      rw [hstep]
      cases hrest : rest with
      | nil =>
          subst hrest
          rw [attemptLoop]
          refine congrArg (Prod.mk none) ?_
          simp only [incFailed, setTask]
          rw [dictInsertTask_same_id s.tasks
            { t with status := "running" } { t with status := "failed" } rfl]
          simp
      | cons b rest₂ =>
          rw [← hrest]
          have hne₂ : rest ≠ [] := by rw [hrest]; simp
          rw [ih _ _ hne₂
            (fun x hx => hTO x (List.mem_cons_of_mem _ hx))]
          refine congrArg (Prod.mk none) ?_
          simp only [incFailed, setTask]
          rw [dictInsertTask_same_id s.tasks
            { t with status := "running" } { t with status := "failed" } rfl]
          rw [dictInsertTask_same_id s.tasks
            { t with status := "failed" } { t with status := "failed" } rfl]
          rw [updWorkerFirst_comp s.workers wname
            (fun w => { w with failed_tasks := w.failed_tasks + 1 })
            (fun w => { w with failed_tasks := w.failed_tasks + rest.length })
            (fun x => rfl)]
          have hfun : (fun w : WorkerAgent =>
              (fun u : WorkerAgent =>
                { u with failed_tasks := u.failed_tasks + rest.length })
                ((fun u : WorkerAgent =>
                  { u with failed_tasks := u.failed_tasks + 1 }) w)) =
              (fun w : WorkerAgent =>
                { w with failed_tasks :=
                  w.failed_tasks + (a :: rest).length }) := by
            funext w
            have hk : w.failed_tasks + 1 + rest.length =
                w.failed_tasks + (a :: rest).length := by
              simp only [List.length_cons]
              omega
            exact congrArg (fun k => WorkerAgent.mk w.name w.expertise
              w.completed_tasks k) hk
          rw [hfun]

/-- C3: if a worker is selected and every one of the `max_retries`
execution attempts times out, `delegate_task` returns the absent
result, the recorded task ends the call in the terminal "failed"
status (with no result), and the selected worker's `failed_tasks`
counter has been incremented once per attempt, i.e. by
`max_retries`. -/
theorem C3_all_timeouts_failed (sup : SupervisorAgent) (desc : String)
    (expertise : Option String) (outcomes : Nat → Option String)
    (w : WorkerAgent)
    (hsel : select_worker sup expertise = some w)
    (hnd : (sup.workers.map WorkerAgent.name).Nodup)
    (hret : 1 ≤ sup.max_retries)
    (hTO : ∀ i < sup.max_retries, outcomes i = none) :
    (delegate_task sup desc expertise outcomes).1 = none ∧
    lookupTask (delegate_task sup desc expertise outcomes).2.tasks
        ("task_" ++ toString sup.tasks.length) =
      some { task_id := "task_" ++ toString sup.tasks.length,
             description := desc, assigned_to := some w.name,
             status := "failed", result := none } ∧
    lookupWorker (delegate_task sup desc expertise outcomes).2.workers
        w.name =
      some { w with failed_tasks := w.failed_tasks + sup.max_retries } := by
  have hne : List.range sup.max_retries ≠ [] := by
    intro h
    rw [List.range_eq_nil] at h
    omega
  have hTO₂ : ∀ a ∈ List.range sup.max_retries, outcomes a = none :=
    fun a ha => hTO a (List.mem_range.mp ha)
  have hrun : delegate_task sup desc expertise outcomes =
      attemptLoop outcomes w.name (List.range sup.max_retries)
        { task_id := "task_" ++ toString sup.tasks.length,
          description := desc, assigned_to := some w.name }
        (setTask sup
          { task_id := "task_" ++ toString sup.tasks.length,
            description := desc, assigned_to := some w.name }) := by
    rw [delegate_task, hsel]
  rw [hrun, attemptLoop_all_timeout _ _ _ _ _ hne hTO₂]
  refine ⟨rfl, ?_, ?_⟩
  · show lookupTask (dictInsertTask (setTask sup _).tasks _) _ = _
    simp only [setTask]
    rw [dictInsertTask_same_id sup.tasks
      { task_id := "task_" ++ toString sup.tasks.length,
        description := desc, assigned_to := some w.name,
        status := "pending", result := none }
      { task_id := "task_" ++ toString sup.tasks.length,
        description := desc, assigned_to := some w.name,
        status := "failed", result := none } rfl]
    exact dictInsertTask_lookup sup.tasks _
  · show lookupWorker (updWorkerFirst (setTask sup _).workers w.name _)
        w.name = _
    simp only [setTask]
    rw [lookupWorker_updWorkerFirst sup.workers w
      (fun u => { u with failed_tasks :=
        u.failed_tasks + (List.range sup.max_retries).length })
      hnd (select_worker_mem sup expertise w hsel) (fun x => rfl)]
    rw [List.length_range]

/-- C3 witness: one registered "ml" worker, `max_retries = 2`, and an
oracle that times out every attempt. -/
theorem C3_witness :
    (delegate_task supML "job" (some "ml") (fun _ => none)).1 = none ∧
    lookupTask (delegate_task supML "job" (some "ml")
        (fun _ => none)).2.tasks
        ("task_" ++ toString supML.tasks.length) =
      some { task_id := "task_" ++ toString supML.tasks.length,
             description := "job", assigned_to := some workerML.name,
             status := "failed", result := none } ∧
    lookupWorker (delegate_task supML "job" (some "ml")
        (fun _ => none)).2.workers workerML.name =
      some { workerML with failed_tasks := workerML.failed_tasks + 2 } :=
  C3_all_timeouts_failed supML "job" (some "ml") (fun _ => none)
    workerML (by decide) (by decide) (by decide) (fun i _ => rfl)

/-! ## Claim C4: weighted-confidence strategy -/

lemma sum_map_one (l : List Vote) :
    (l.map (fun _ => (1 : Nat))).sum = l.length := by
  induction l with
  | nil => simp
  | cons a rest ih => simp [ih, Nat.add_comm]

lemma option_scores_get (votes : List Vote) (o : String) :
    assocGet (option_scores votes) o =
      if votes.any (fun v => v.option = o) then
        some ((votes.filter (fun v => v.option = o)).map
          Vote.confidence).sum
      else none := by
  have h := foldl_assocUpd_get Vote.confidence votes [] o
  rw [show (votes.foldl (fun a v => assocUpd a v.option 0
      (· + Vote.confidence v)) []) = option_scores votes from rfl] at h
  rw [h]
  by_cases hany : votes.any (fun v => v.option = o)
  · simp [hany, assocGet]
  · simp [hany, assocGet]

lemma option_counts_get (votes : List Vote) (o : String) :
    assocGet (option_counts votes) o =
      if votes.any (fun v => v.option = o) then
        some (votes.filter (fun v => v.option = o)).length
      else none := by
  have h := foldl_assocUpd_get (fun _ : Vote => (1 : Nat)) votes [] o
  rw [show (votes.foldl (fun a v => assocUpd a v.option 0
      (· + (fun _ : Vote => (1 : Nat)) v)) []) = option_counts votes
    from rfl] at h
  rw [h]
  by_cases hany : votes.any (fun v => v.option = o)
  · simp [hany, assocGet, sum_map_one]
  · simp [hany, assocGet]

lemma option_scores_total (votes : List Vote) :
    ((option_scores votes).map Prod.snd).sum =
      (votes.map Vote.confidence).sum := by
  have h := foldl_assocUpd_sum Vote.confidence votes []
  simpa using h

lemma option_scores_nodup (votes : List Vote) :
    ((option_scores votes).map Prod.fst).Nodup :=
  foldl_assocUpd_keys_nodup Vote.confidence votes [] (by simp)

lemma option_scores_mem_val (votes : List Vote) (x : String × ℚ)
    (hx : x ∈ option_scores votes) :
    x.2 = ((votes.filter (fun v => v.option = x.1)).map
        Vote.confidence).sum ∧
      votes.any (fun v => v.option = x.1) = true := by
  have hget := assocGet_of_mem _ (option_scores_nodup votes) x hx
  rw [option_scores_get] at hget
  by_cases hany : votes.any (fun v => v.option = x.1)
  · rw [if_pos hany] at hget
    exact ⟨(Option.some_inj.mp hget).symm, hany⟩
  · rw [if_neg hany] at hget
    cases hget

lemma foldMax_eq_pickMinBy {β : Type} [LinearOrder β] (p : String × β)
    (rest : List (String × β)) :
    rest.foldl (fun best q => if q.2 > best.2 then q else best) p =
      pickMinBy (fun q : String × β => OrderDual.toDual q.2) p rest := by
  induction rest generalizing p with
  | nil => rfl
  | cons q l ih =>
      rw [List.foldl_cons, pickMinBy, ih]
      by_cases h : q.2 > p.2
      · simp [h, OrderDual.toDual_lt_toDual]
      · simp [h, OrderDual.toDual_lt_toDual]

/-- C4 counterexample: the claimed weighted-confidence report is not
produced for every vote log.  A single vote recorded with confidence
0.0 (which `add_vote` stores unchanged after clamping) leaves a total
summed confidence of 0, and `_weighted_consensus` then raises
`ZeroDivisionError` computing winner-sum / total instead of returning
the report the claim describes. -/
theorem C4_counterexample :
    calculate_consensus
        (add_vote { strategy := VotingStrategy.weighted_confidence,
                    votes := [] } "a" "A" 0 "") =
      ConsensusResult.zeroDivisionError ∧
    ConsensusResult.zeroDivisionError ≠
      ConsensusResult.weighted "A" 0 [("A", 0)] := by
  constructor
  · have h1 : add_vote { strategy := VotingStrategy.weighted_confidence,
                         votes := [] } "a" "A" 0 "" =
        { strategy := VotingStrategy.weighted_confidence,
          votes := [{ agent_name := "a", option := "A",
                      confidence := 0, reasoning := "" }] } := by
      rw [add_vote]
      norm_num
    rw [h1]
    simp +decide only [calculate_consensus, weighted_consensus,
      option_scores, option_counts, assocUpd, assocGet, firstMaxKey,
      List.foldl_cons, List.foldl_nil]
    norm_num
  · intro h
    cases h

/-- C4 (amended): under the weighted-confidence strategy, (a) the
spec's test vector {(A,0.9),(A,0.8),(B,0.6)} yields winner A with
confidence `(0.9+0.8)/(0.9+0.8+0.6) = 17/23` and per-option average
breakdown {A ↦ 0.85, B ↦ 0.6}; and (b) for every non-empty vote log
whose total summed confidence is nonzero (with total 0 the code
instead raises `ZeroDivisionError`) the winner is the per-option
confidence-sum dict entry that first attains the maximal sum (all
entries before it are strictly smaller, none anywhere is larger),
each dict entry holds the sum of its option's confidences, the
reported confidence is the winner's sum divided by the total summed
confidence, and the breakdown reports sum/count (the average) per
option. -/
theorem C4_weighted_confidence :
    (calculate_consensus
        { strategy := VotingStrategy.weighted_confidence,
          votes := votesC4 } =
      ConsensusResult.weighted "A" (17/23) [("A", 17/20), ("B", 3/5)]) ∧
    ∀ votes : List Vote, votes ≠ [] →
      (votes.map Vote.confidence).sum ≠ 0 →
      ∃ pre post winner,
        option_scores votes = pre ++ winner :: post ∧
        (∀ x ∈ pre, x.2 < winner.2) ∧
        (∀ x ∈ option_scores votes, x.2 ≤ winner.2) ∧
        (∀ x ∈ option_scores votes, x.2 =
          ((votes.filter (fun v => v.option = x.1)).map
            Vote.confidence).sum) ∧
        weighted_consensus votes = ConsensusResult.weighted winner.1
          (winner.2 / (votes.map Vote.confidence).sum)
          ((option_scores votes).map (fun q =>
            (q.1, q.2 /
              ((votes.filter (fun v => v.option = q.1)).length : ℚ)))) := by
  constructor
  · simp +decide only [calculate_consensus, weighted_consensus, votesC4,
      option_scores, option_counts, assocUpd, assocGet, firstMaxKey,
      List.foldl_cons, List.foldl_nil]
    norm_num [(by decide : ¬ ("A" : String) = "B")]
  · intro votes hvne htot
    have hne2 : option_scores votes ≠ [] := by
      cases votes with
      | nil => exact absurd rfl hvne
      | cons v rest =>
          rw [option_scores, List.foldl_cons]
          exact foldl_assocUpd_ne_nil Vote.confidence rest _
            (assocUpd_ne_nil _ _ _ _)
    cases hs : option_scores votes with
    | nil => exact absurd hs hne2
    | cons c crest =>
        obtain ⟨pre, post, hsplit, hpre⟩ :=
          pickMinBy_decomp (fun q : String × ℚ => OrderDual.toDual q.2)
            c crest
        have hub := pickMinBy_le
          (fun q : String × ℚ => OrderDual.toDual q.2) c crest
        refine ⟨pre, post,
          pickMinBy (fun q : String × ℚ => OrderDual.toDual q.2) c crest,
          ?_, ?_, ?_, ?_, ?_⟩
        · exact hsplit
        · intro x hx
          have := hpre x hx
          simpa [OrderDual.toDual_lt_toDual] using this
        · intro x hx
          have := hub x hx
          simpa [OrderDual.toDual_le_toDual] using this
        · intro x hx
          exact (option_scores_mem_val votes x (by rw [hs]; exact hx)).1
        · have hwmem : pickMinBy
              (fun q : String × ℚ => OrderDual.toDual q.2) c crest ∈
              option_scores votes := by
            rw [hs, hsplit]
            exact List.mem_append.mpr (Or.inr (List.mem_cons_self _ _))
          have hfmk : firstMaxKey (option_scores votes) =
              some (pickMinBy
                (fun q : String × ℚ => OrderDual.toDual q.2) c crest).1 := by
            rw [hs, firstMaxKey, foldMax_eq_pickMinBy]
          have hgetw := assocGet_of_mem _ (option_scores_nodup votes)
            _ hwmem
          simp only [weighted_consensus, hfmk, hgetw, Option.getD_some,
            option_scores_total, htot, if_false]
          refine congrArg _ ?_
          rw [← hs]
          apply List.map_congr_left
          intro q hq
          have hcnt := option_counts_get votes q.1
          rw [if_pos (option_scores_mem_val votes q hq).2] at hcnt
          rw [hcnt, Option.getD_some]

/-- C4 witness: the general characterization applied to the concrete
vote log {(A,0.9),(A,0.8),(B,0.6)}, whose total summed confidence
2.3 is nonzero. -/
theorem C4_witness :
    ∃ pre post winner,
      option_scores votesC4 = pre ++ winner :: post ∧
      (∀ x ∈ pre, x.2 < winner.2) ∧
      (∀ x ∈ option_scores votesC4, x.2 ≤ winner.2) ∧
      (∀ x ∈ option_scores votesC4, x.2 =
        ((votesC4.filter (fun v => v.option = x.1)).map
          Vote.confidence).sum) ∧
      weighted_consensus votesC4 = ConsensusResult.weighted winner.1
        (winner.2 / (votesC4.map Vote.confidence).sum)
        ((option_scores votesC4).map (fun q =>
          (q.1, q.2 /
            ((votesC4.filter (fun v => v.option = q.1)).length : ℚ)))) :=
  C4_weighted_confidence.2 votesC4 (by decide)
    (by norm_num [votesC4])

/-! ## Claim C8: worker selection -/

lemma pickMinBy_char (c : WorkerAgent) (rest : List WorkerAgent) :
    ∃ pre post, c :: rest = pre ++ pickMinBy get_load c rest :: post ∧
      (∀ u ∈ pre, get_load (pickMinBy get_load c rest) < get_load u) ∧
      ∀ u ∈ c :: rest, get_load (pickMinBy get_load c rest) ≤ get_load u := by
  obtain ⟨pre, post, h1, h2⟩ := pickMinBy_decomp get_load c rest
  exact ⟨pre, post, h1, h2, pickMinBy_le get_load c rest⟩

/-- C8 counterexample: with one registered worker carrying no
expertise tag, selecting with the empty-string tag "" does not filter
(Python's `if expertise:` treats "" as absent): although no worker has
expertise "", the worker is returned rather than the absent-worker
signal. -/
theorem C8_counterexample :
    supPlain.workers.filter (fun w => w.expertise = some "") = [] ∧
    select_worker supPlain (some "") = some workerPlain := by
  constructor <;> decide

/-- C8 (amended): when a non-empty expertise tag is given,
`select_worker` filters the registered workers by that tag and returns
the absent-worker signal exactly when the filtered candidate set is
empty — in particular for a nonexistent tag; otherwise it returns the
first candidate attaining the minimum load (`failed_tasks /
max(1, completed_tasks + failed_tasks)`): all candidates before it
have strictly greater load and none anywhere has smaller load.  With
no tag given the same selection runs over all registered workers.  (An
empty-string tag is treated by the code as "no tag given".) -/
theorem C8_select_worker :
    (∀ (sup : SupervisorAgent) (e : String), e ≠ "" →
      (select_worker sup (some e) = none ↔
        sup.workers.filter (fun w => w.expertise = some e) = []) ∧
      ∀ w, select_worker sup (some e) = some w →
        ∃ pre post,
          sup.workers.filter (fun u => u.expertise = some e) =
            pre ++ w :: post ∧
          (∀ u ∈ pre, get_load w < get_load u) ∧
          ∀ u ∈ sup.workers.filter (fun u => u.expertise = some e),
            get_load w ≤ get_load u) ∧
    ∀ sup : SupervisorAgent,
      (select_worker sup none = none ↔ sup.workers = []) ∧
      ∀ w, select_worker sup none = some w →
        ∃ pre post, sup.workers = pre ++ w :: post ∧
          (∀ u ∈ pre, get_load w < get_load u) ∧
          ∀ u ∈ sup.workers, get_load w ≤ get_load u := by
  constructor
  · intro sup e he
    have htr : truthy (some e) = true := by simp [truthy, he]
    constructor
    · rw [select_worker]
      simp only [htr, if_pos]
      cases hc : sup.workers.filter (fun u => u.expertise = some e) with
      | nil => simp
      | cons c rest => simp
    · intro w hw
      rw [select_worker] at hw
      simp only [htr, if_pos] at hw
      cases hc : sup.workers.filter (fun u => u.expertise = some e) with
      | nil =>
          rw [hc] at hw
          cases hw
      | cons c rest =>
          rw [hc] at hw
          have h₂ : some (pickMinBy get_load c rest) = some w := hw
          rw [← Option.some_inj.mp h₂]
          exact pickMinBy_char c rest
  · intro sup
    constructor
    · rw [select_worker]
      simp only [truthy, Bool.false_eq_true, if_false]
      cases hc : sup.workers with
      | nil => simp
      | cons c rest => simp
    · intro w hw
      rw [select_worker] at hw
      simp only [truthy, Bool.false_eq_true, if_false] at hw
      cases hc : sup.workers with
      | nil =>
          rw [hc] at hw
          cases hw
      | cons c rest =>
          rw [hc] at hw
          have h₂ : some (pickMinBy get_load c rest) = some w := hw
          rw [← Option.some_inj.mp h₂]
          exact pickMinBy_char c rest

/-- C8 witness: two "ml"-tagged workers of loads 1 and 0; the given
tag "ml" is non-empty, the candidate set is non-empty, and the
returned worker is the zero-load one, characterized as the first
minimum-load candidate. -/
theorem C8_witness :
    (select_worker supTwo (some "ml") = none ↔
      supTwo.workers.filter (fun w => w.expertise = some "ml") = []) ∧
    ∃ pre post,
      supTwo.workers.filter (fun u => u.expertise = some "ml") =
        pre ++ workerML :: post ∧
      (∀ u ∈ pre, get_load workerML < get_load u) ∧
      ∀ u ∈ supTwo.workers.filter (fun u => u.expertise = some "ml"),
        get_load workerML ≤ get_load u := by
  have h := C8_select_worker.1 supTwo "ml" (by decide)
  refine ⟨h.1, h.2 workerML ?_⟩
  show some (pickMinBy get_load workerML2 [workerML]) = some workerML
  rw [pickMinBy, pickMinBy]
  have hlt : get_load workerML < get_load workerML2 := by
    simp only [get_load, workerML, workerML2]
    norm_num
  rw [if_pos hlt]

end Patterns
